import Mathlib

/-!
# jruls: per-jail resource usage display

A shallow embedding of `jruls.c`.  C strings are modelled as `List Char`
(the characters before the terminating NUL; the terminator itself is the
end of the list).  `uint64_t` values are natural numbers below `2 ^ 64`,
`int` values are integers.  The libc routines the program calls
(`strcmp`, `strstr`, `strtoull`, the `printf` conversions) are modelled
after the C standard in the sections that precede their first use.
-/

set_option maxRecDepth 100000

namespace Jruls

/-! ## libc: strings -/

/-- A C string: the characters in front of the terminating NUL. -/
abbrev CStr := List Char

/-- The function `strcmp` of libc: difference of the first pair of characters that differ
(the terminator counts as 0), zero when the strings are equal. -/
def strcmp : CStr → CStr → Int
  | [], [] => 0
  | [], b :: _ => 0 - (b.toNat : Int)
  | a :: _, [] => (a.toNat : Int)
  | a :: as, b :: bs => if a = b then strcmp as bs else (a.toNat : Int) - (b.toNat : Int)

/-- The function `strstr` of libc: the tail of `hay` that starts at the first occurrence of
`needle`, `none` (the null pointer) when there is none.  An empty needle
matches at the very start. -/
def strstr : CStr → CStr → Option CStr
  | [], needle => if needle.isPrefixOf [] then some [] else none
  | c :: hay, needle =>
    if needle.isPrefixOf (c :: hay) then some (c :: hay) else strstr hay needle

/-- The function `isspace` in the C locale. -/
def isspace (c : Char) : Bool :=
  c.toNat = 32 || (9 ≤ c.toNat && c.toNat ≤ 13)

/-- The function `isdigit` of libc. -/
def isdigit (c : Char) : Bool :=
  48 ≤ c.toNat && c.toNat ≤ 57

/-- Accumulation of a run of decimal digits, most significant first, as
`strtoull` does in base 10. -/
def accDigits (ds : List Char) : Nat :=
  ds.foldl (fun acc c => acc * 10 + (c.toNat - 48)) 0

/-- The largest `unsigned long long`. -/
def ULLONG_MAX : Nat := 2 ^ 64 - 1

/-- The call `strtoull(s, 0, 10)`: skip white space, take an optional sign, read the
longest run of decimal digits.  No digits give 0; a value that does not
fit gives `ULLONG_MAX`; a minus sign negates modulo `2 ^ 64`. -/
def strtoull (s : CStr) : Nat :=
  let s1 := s.dropWhile isspace
  let neg := s1.head? = some '-'
  let s2 := if s1.head? = some '-' ∨ s1.head? = some '+' then s1.tail else s1
  let n := accDigits (s2.takeWhile isdigit)
  if ULLONG_MAX < n then ULLONG_MAX
  else if neg then (2 ^ 64 - n) % 2 ^ 64
  else n

/-! ## The metric registry -/

/-- The two value formatters a metric can point to. -/
inductive Printer
  | print_n
  | print_nmp
  deriving DecidableEq, Repr

/-- The C type `struct metric`. -/
structure Metric where
  label : CStr
  name : CStr
  colwidth : Int
  print : Printer
  deriving DecidableEq, Repr

def cw_jid : Int := 3
def cw_name : Int := 20
def cw_pct : Int := 4
def cw_mem : Int := 6
def cw_iops : Int := 5
def cw_iovol : Int := 6
def cw_cnt : Int := 5

/-- The table `all_metrics`. -/
def all_metrics : List Metric := [
  ⟨"cpu%".toList, "pcpu".toList, cw_pct, .print_n⟩,
  ⟨"mem".toList, "memoryuse".toList, cw_mem, .print_nmp⟩,
  ⟨"memlck".toList, "memorylocked".toList, cw_mem, .print_nmp⟩,
  ⟨"proc".toList, "maxproc".toList, cw_cnt, .print_n⟩,
  ⟨"fds".toList, "openfiles".toList, cw_cnt, .print_nmp⟩,
  ⟨"vmem".toList, "vmemoryuse".toList, cw_mem, .print_nmp⟩,
  ⟨"ptys".toList, "pseudoterminals".toList, cw_cnt, .print_n⟩,
  ⟨"swap".toList, "swapuse".toList, cw_mem, .print_nmp⟩,
  ⟨"thread".toList, "nthr".toList, cw_cnt, .print_n⟩,
  ⟨"r/s".toList, "readiops".toList, cw_iops, .print_nmp⟩,
  ⟨"read".toList, "readbps".toList, cw_iovol, .print_nmp⟩,
  ⟨"w/s".toList, "writeiops".toList, cw_iops, .print_nmp⟩,
  ⟨"writtn".toList, "writebps".toList, cw_iovol, .print_nmp⟩]

/-- The count `tot_metrics`. -/
def tot_metrics : Nat := all_metrics.length

/-- The loop of `find_metric` from position `i` of the table on: `tbl` is
what is left of the table between `it` and `endp`. -/
def find_metric_from (name : CStr) : List Metric → Nat → Option Nat
  | [], _ => none
  | m :: rest, i =>
    if strcmp m.label name = 0 ∨ strcmp m.name name = 0 then some i
    else find_metric_from name rest (i + 1)

/-- The function `find_metric`: the position in `all_metrics` of the first entry whose label
or name is `name` (the pointer `it`), `none` for the null pointer. -/
def find_metric (name : CStr) : Option Nat :=
  find_metric_from name all_metrics 0

/-! ## The blob decoder -/

/-- The function `findval`: the number after the first `=` at or after the first
occurrence of `name` in `list`, 0 when there is none. -/
def findval (list name : CStr) : Nat :=
  match strstr list name with
  | none => 0
  | some p =>
    match p.dropWhile (fun c => c != '=') with
    | [] => 0
    | _ :: q => strtoull q

/-! ## libc: formatted output -/

/-- The character of a decimal digit. -/
def digitChar (d : Nat) : Char :=
  match d with
  | 0 => '0' | 1 => '1' | 2 => '2' | 3 => '3' | 4 => '4'
  | 5 => '5' | 6 => '6' | 7 => '7' | 8 => '8' | _ => '9'

/-- Decimal digits of `n`, most significant first; `fuel` bounds the
number of digits written. -/
def decimalAux : Nat → Nat → List Char
  | 0, n => [digitChar (n % 10)]
  | fuel + 1, n =>
    if n < 10 then [digitChar n] else decimalAux fuel (n / 10) ++ [digitChar (n % 10)]

/-- The conversion `%u` (and `PRIu64`) of `printf`: the decimal digits of `n`. -/
def decimal (n : Nat) : List Char := decimalAux n n

/-- The conversion `%d` of `printf`. -/
def decimalInt (i : Int) : List Char :=
  if i < 0 then '-' :: decimal i.natAbs else decimal i.natAbs

/-- A field of minimum width `width` given with `*`: the text is
right-justified with blanks; a negative width means the `-` flag with the
absolute value as width.  Text wider than the field is written whole. -/
def padStar (width : Int) (s : List Char) : List Char :=
  if 0 ≤ width then List.replicate (width.toNat - s.length) ' ' ++ s
  else s ++ List.replicate (width.natAbs - s.length) ' '

/-- A field given as `%-*s`: left-justified in the absolute value of the width. -/
def padMinusStar (width : Int) (s : List Char) : List Char :=
  s ++ List.replicate (width.natAbs - s.length) ' '

/-- The quotient `num / den` rounded to the nearest integer, ties to even. -/
def roundHalfEven (num den : Nat) : Nat :=
  let q := num / den
  let r := num % den
  if den < 2 * r ∨ (2 * r = den ∧ q % 2 = 1) then q + 1 else q

/-- Position of the highest set bit of `n` (0 for `n < 2`); `fuel` bounds
the number of halvings. -/
def ilog2Aux : Nat → Nat → Nat
  | 0, _ => 0
  | fuel + 1, n => if n < 2 then 0 else ilog2Aux fuel (n / 2) + 1

/-- Position of the highest set bit of `n`. -/
def ilog2 (n : Nat) : Nat := ilog2Aux n n

/-- The conversion of a `uint64_t` to `double`: exact below `2 ^ 53`, otherwise
rounded to 53 significant bits, ties to even.  The result is an integer. -/
def toDouble (v : Nat) : Nat :=
  if v < 2 ^ 53 then v
  else
    let e := ilog2 v - 52
    roundHalfEven v (2 ^ e) * 2 ^ e

/-- The last `prec` decimal digits of `r`, zero filled. -/
def fracDigits : Nat → Nat → List Char
  | 0, _ => []
  | prec + 1, r => fracDigits prec (r / 10) ++ [digitChar (r % 10)]

/-- The conversion `%.<prec>f` of the double `num / den` (a double divided by a power
of two is exact): the exact value rounded to `prec` decimals, ties to
even.  `dp` is the decimal-point character of the locale in force; it
is written only when `prec` is not 0. -/
def fmtFixed (dp : Char) (prec : Nat) (num den : Nat) : List Char :=
  let q := roundHalfEven (num * 10 ^ prec) den
  if prec = 0 then decimal q
  else decimal (q / 10 ^ prec) ++ dp :: fracDigits prec (q % 10 ^ prec)

/-- The call `snprintf(buf, size, ...)`: at most `size - 1` characters are stored. -/
def snprintf (size : Nat) (s : List Char) : List Char := s.take (size - 1)

/-! ## The value formatters -/

/-- What reaches the I/O layer: the five operations of `struct iofuncs`,
and the calls to `sleep`, `puts` and `printf` of `main`. -/
inductive Ev
  | xclear
  | xattron
  | xattroff
  | xprint (text : List Char)
  | xrefresh
  | sleep (seconds : Int)
  | puts (text : List Char)
  | printf (text : List Char)
  deriving DecidableEq, Repr

/-- The text `print_n` hands to `io.xprint`. -/
def print_n_text (v : Nat) (colwidth : Int) : List Char :=
  padStar colwidth (decimal v)

/-- The function `print_n`. -/
def print_n (v : Nat) (colwidth : Int) : List Ev :=
  [Ev.xprint (print_n_text v colwidth)]

/-- The content of `buf` in `print_nmp` after the `snprintf` call; `dp` is the
decimal-point character of the locale in force when `print_nmp` runs. -/
def print_nmp_buf (dp : Char) (v : Nat) : List Char :=
  if v < 9999 then snprintf 20 (decimal v)
  else if 9999 * 1024 * 1024 < v then
    snprintf 20 (fmtFixed dp 2 (toDouble v) (1024 * 1024 * 1024) ++ ['G'])
  else if 9999 * 1024 < v then
    snprintf 20 (fmtFixed dp 1 (toDouble v) (1024 * 1024) ++ ['M'])
  else
    snprintf 20 (fmtFixed dp 0 (toDouble v) 1024 ++ ['K'])

/-- The text `print_nmp` hands to `io.xprint`. -/
def print_nmp_text (dp : Char) (v : Nat) (colwidth : Int) : List Char :=
  padStar colwidth (print_nmp_buf dp v)

/-- The function `print_nmp`, under a locale whose decimal-point character is `dp`. -/
def print_nmp (dp : Char) (v : Nat) (colwidth : Int) : List Ev :=
  [Ev.xprint (print_nmp_text dp v colwidth)]

/-- The call through the function pointer `print` of a metric. -/
def call_print (dp : Char) : Printer → Nat → Int → List Ev
  | Printer.print_n, v, w => print_n v w
  | Printer.print_nmp, v, w => print_nmp dp v w

/-! ## Rows and headers -/

def MAXHOSTNAMELEN : Nat := 256
def ENOENT : Int := 2
def ENOSYS : Int := 78
def EX_USAGE : Int := 64
def EX_UNAVAILABLE : Int := 69
def EX_OSERR : Int := 71
def INT_MAX : Int := 2147483647

/-- What a call has written, and the exit status when the process was
terminated inside the call (`none`: the call returned).  The diagnostics
that `err` and `errx` write to the standard error are not recorded. -/
structure Run where
  out : List Ev
  exit : Option Int
  deriving DecidableEq, Repr

/-- What `rctl_get_racct` answers: the text it stored in `buf`, or -1 with
`errno` set. -/
inductive Racct
  | blob (buf : CStr)
  | error (errno : Int)
  deriving DecidableEq, Repr

/-- The function `print_headers`, for the selected `metrics`. -/
def print_headers (metrics : List Metric) : List Ev :=
  [Ev.xclear, Ev.xattron,
   Ev.xprint (padStar cw_jid "jid".toList ++ "  ".toList ++ padMinusStar cw_name "name".toList)]
  ++ metrics.map (fun m => Ev.xprint ("  ".toList ++ padStar m.colwidth m.label))
  ++ [Ev.xprint "\n".toList, Ev.xattroff]

/-- The loop of `print_jail` over the selected metrics when the query succeeded. -/
def print_cells (dp : Char) (buf : CStr) : List Metric → List Ev
  | [] => []
  | m :: rest =>
    Ev.xprint "  ".toList :: call_print dp m.print (findval buf m.name) m.colwidth
      ++ print_cells dp buf rest

/-- The query string `q` that `print_jail` builds for the jail `name`. -/
def print_jail_q (name : CStr) : CStr :=
  snprintf (MAXHOSTNAMELEN + 20) ("jail:".toList ++ name ++ ":cputime".toList)

/-- The first `io.xprint` of `print_jail`: the jail id and name columns. -/
def print_jail_row (jid : Int) (name : CStr) : Ev :=
  Ev.xprint (padStar cw_jid (decimalInt jid) ++ "  ".toList ++ padMinusStar cw_name name)

/-- The function `print_jail`.  `rctl_get_racct` answers the query string `q`; `strerror`
gives the text of an error number; `dp` is the decimal-point character of the
locale in force. -/
def print_jail (dp : Char) (rctl_get_racct : CStr → Racct) (strerror : Int → CStr)
    (metrics : List Metric) (jid : Int) (name : CStr) : Run :=
  let row := print_jail_row jid name
  match rctl_get_racct (print_jail_q name) with
  | Racct.blob buf => ⟨row :: print_cells dp buf metrics ++ [Ev.xprint "\n".toList], none⟩
  | Racct.error errno =>
    if errno = ENOSYS then ⟨[row], some EX_OSERR⟩
    else ⟨[row, Ev.xprint (": ".toList ++ strerror errno), Ev.xprint "\n".toList], none⟩

/-! ## main -/

/-- The call `strtol(s, &endp, 10)`: the value and what `endp` points to.  Without digits
the value is 0 and `endp` is `s`; a value out of range is clamped to
`LONG_MIN` or `LONG_MAX`. -/
def strtol (s : CStr) : Int × CStr :=
  let s1 := s.dropWhile isspace
  let neg := s1.head? = some '-'
  let s2 := if s1.head? = some '-' ∨ s1.head? = some '+' then s1.tail else s1
  let ds := s2.takeWhile isdigit
  if ds = [] then (0, s)
  else
    let n : Int := accDigits ds
    let v : Int := if neg then -n else n
    (max (-(2 ^ 63)) (min v (2 ^ 63 - 1)), s2.dropWhile isdigit)

/-- Assignment of a `long` to an `int`: the low 32 bits, two's complement. -/
def toInt32 (x : Int) : Int := (x + 2 ^ 31) % 2 ^ 32 - 2 ^ 31

/-- What one pass of the container enumerator yields: the successive
successful answers of `jailparam_get` (jail id and name), then `errno` of
the call that returned -1; and the accounting subsystem during the pass. -/
structure PassEnv where
  jails : List (Int × CStr)
  errno : Int
  rctl_get_racct : CStr → Racct

/-- The system around `main`: the answer of `sysctlbyname` and the value it stores in
`ena`, whether the `jailparam_init` and `jailparam_import_raw` calls succeed, whether
`TERM` is set and the standard output is a terminal, whether `initscr` can set up the
terminal, the decimal-point character of the locale that `setlocale(LC_ALL, "")`
selects, the texts of `strerror`, and what the successive passes meet. -/
structure World where
  sysctl_rv : Int
  sysctl_errno : Int
  ena : Int
  jailparam_init_ok : Bool
  jailparam_import_ok : Bool
  term_set : Bool
  isatty1 : Bool
  initscr_ok : Bool
  decimal_point : Char
  strerror : Int → CStr
  passes : Nat → PassEnv

/-- The option loop of `main`: `opts` is what `getopt` returns call after call (the
option character and `optarg`).  The result is `count` and `sleep_itv`, or
the exit of the process. -/
def parse_opts : List (Char × CStr) → Int → Int → Except Run (Int × Int)
  | [], count, sleep_itv => Except.ok (count, sleep_itv)
  | (opt, optarg) :: rest, count, sleep_itv =>
    if opt = 's' then
      let r := strtol optarg
      let itv := toInt32 r.1
      if r.2 ≠ [] ∨ itv ≤ 0 then Except.error ⟨[], some EX_USAGE⟩
      else parse_opts rest count itv
    else if opt = 'd' then
      let r := strtol optarg
      let cnt := toInt32 r.1
      if r.2 ≠ [] ∨ cnt < 0 then Except.error ⟨[], some EX_USAGE⟩
      else parse_opts rest cnt sleep_itv
    else Except.error ⟨[Ev.printf "Usage: jruls [-d count] [-s time]\n".toList], some EX_USAGE⟩

/-- The array `metrics` filled from the results of `find_metric`: it ends
at the first null pointer. -/
def select_metrics : List (Option Nat) → List Metric
  | [] => []
  | none :: _ => []
  | some i :: rest =>
    match all_metrics.get? i with
    | some m => m :: select_metrics rest
    | none => []

/-- The default selection made in `main`. -/
def metrics : List Metric :=
  select_metrics (["cpu%", "mem", "r/s", "read", "w/s", "writtn"].map
    (fun l => find_metric l.toList))

/-- The function `init_io`, as far as `smart_terminal` goes. -/
def init_io (w : World) : Bool := w.term_set && w.isatty1

/-- The decimal-point character in force after `init_io`: on a smart terminal
`init_io` calls `setlocale(LC_ALL, "")`, which selects the locale of the
environment; otherwise the program stays in the C locale, whose decimal point
is a full stop. -/
def locale_radix (w : World) : Char :=
  if init_io w then w.decimal_point else '.'

/-- The status `EXIT_FAILURE`, with which `initscr` exits when it cannot set up
the terminal. -/
def EXIT_FAILURE : Int := 1

/-- The inner loop of `main` over the answers of `jailparam_get`; `n`
counts the containers seen so far in the pass.  Returns the final `n`. -/
def jail_loop (w : World) (env : PassEnv) : List (Int × CStr) → Int → Run × Int
  | [], n => (⟨[], none⟩, n)
  | (jid, name) :: rest, n =>
    let hdr := if n + 1 = 1 then print_headers metrics else []
    let r := print_jail (locale_radix w) env.rctl_get_racct w.strerror metrics jid name
    match r.exit with
    | some c => (⟨hdr ++ r.out, some c⟩, n + 1)
    | none =>
      let r2 := jail_loop w env rest (n + 1)
      (⟨hdr ++ r.out ++ r2.1.out, r2.1.exit⟩, r2.2)

/-- One pass of the outer loop of `main` up to and including `io.xrefresh()`. -/
def one_pass (w : World) (env : PassEnv) : Run :=
  let r := jail_loop w env env.jails 0
  match r.1.exit with
  | some c => ⟨r.1.out, some c⟩
  | none =>
    if env.errno ≠ ENOENT then ⟨r.1.out, some EX_OSERR⟩
    else if r.2 = 0 then ⟨r.1.out, some EX_UNAVAILABLE⟩
    else ⟨r.1.out ++ [Ev.xrefresh], none⟩

/-- The outer `do ... while (--count > 0)` loop of `main` and the final
`return 0`, entered with `count` (never negative there) at pass number `k`. -/
def sampling_loop (w : World) (sleep_itv : Int) : Nat → Nat → Run
  | 0, k | 1, k =>
    let r := one_pass w (w.passes k)
    match r.exit with
    | some c => ⟨r.out, some c⟩
    | none => ⟨r.out, some 0⟩
  | count + 2, k =>
    let r := one_pass w (w.passes k)
    match r.exit with
    | some c => ⟨r.out, some c⟩
    | none =>
      let r2 := sampling_loop w sleep_itv (count + 1) (k + 1)
      ⟨r.out ++ [Ev.sleep sleep_itv, Ev.puts []] ++ r2.out, r2.exit⟩

/-- The function `main`; `opts` is what `getopt` finds on the command line. -/
def main (w : World) (opts : List (Char × CStr)) : Run :=
  if w.sysctl_rv = -1 ∧ w.sysctl_errno = ENOENT then ⟨[], some EX_UNAVAILABLE⟩
  else if w.ena = 0 then ⟨[], some EX_UNAVAILABLE⟩
  else
    match parse_opts opts INT_MAX 2 with
    | Except.error r => r
    | Except.ok (count, sleep_itv) =>
      if !w.jailparam_init_ok then ⟨[], some EX_OSERR⟩
      else if !w.jailparam_import_ok then ⟨[], some EX_OSERR⟩
      else
        let smart_terminal := init_io w
        if smart_terminal ∧ !w.initscr_ok then ⟨[], some EXIT_FAILURE⟩
        else
          let count := if count = INT_MAX ∧ !smart_terminal then 1 else count
          sampling_loop w sleep_itv count.toNat 0

/-! ## Specification-side notions -/

/-- A well-formed C string holds no NUL character. -/
def NulFree (s : CStr) : Prop := ∀ c ∈ s, c.toNat ≠ 0

instance (s : CStr) : Decidable (NulFree s) := by
  unfold NulFree; infer_instance

/-- The number a run of decimal digits denotes, most significant digit first. -/
def numberOf (ds : List Char) : Nat :=
  Nat.ofDigits 10 (ds.reverse.map (fun c => c.toNat - 48))

/-- A letter of the ASCII alphabet. -/
def isLetter (c : Char) : Bool :=
  (65 ≤ c.toNat && c.toNat ≤ 90) || (97 ≤ c.toNat && c.toNat ≤ 122)

/-- A letter or a decimal digit. -/
def isAlnum (c : Char) : Bool := isLetter c || isdigit c

/-- The text of an accounting blob with the given key/value pairs, in order:
`key=value` items separated by commas. -/
def renderBlob : List (CStr × CStr) → CStr
  | [] => []
  | p :: rest =>
    p.1 ++ '=' :: p.2 ++ (if rest.isEmpty then [] else ',' :: renderBlob rest)

/-- A value of a blob: a non-empty run of decimal digits denoting a number below `2 ^ 64`. -/
def IsValue (v : CStr) : Prop :=
  v ≠ [] ∧ (∀ c ∈ v, isdigit c = true) ∧ numberOf v < 2 ^ 64

instance (v : CStr) : Decidable (IsValue v) := by
  unfold IsValue; infer_instance

/-- A well-formed accounting blob: distinct, non-empty alphanumeric keys, each with
an unsigned decimal value below `2 ^ 64`. -/
def WellFormedBlob (pairs : List (CStr × CStr)) : Prop :=
  (∀ p ∈ pairs, p.1 ≠ [] ∧ (∀ c ∈ p.1, isAlnum c = true) ∧ IsValue p.2) ∧
  (pairs.map Prod.fst).Nodup

instance (pairs : List (CStr × CStr)) : Decidable (WellFormedBlob pairs) := by
  unfold WellFormedBlob; infer_instance

/-- Every `=` of the text is followed by a (possibly empty) run of decimal digits denoting a
number below `2 ^ 64`, and then by a comma or the end of the text. -/
def EqThenNumber : CStr → Prop
  | [] => True
  | c :: post =>
    (c = '=' → numberOf (post.takeWhile isdigit) < 2 ^ 64 ∧
      (post.dropWhile isdigit = [] ∨ (post.dropWhile isdigit).head? = some ',')) ∧
    EqThenNumber post

instance : (blob : CStr) → Decidable (EqThenNumber blob)
  | [] => isTrue trivial
  | c :: post =>
    have := instDecidableEqThenNumber post
    by unfold EqThenNumber; infer_instance

/-- The text `key` occurs in `blob` right after `pre`, and at no earlier position. -/
def FirstOccurrence (blob key pre rest : CStr) : Prop :=
  blob = pre ++ (key ++ rest) ∧ ∀ n < pre.length, ¬ key <+: blob.drop n

instance (blob key pre rest : CStr) : Decidable (FirstOccurrence blob key pre rest) := by
  unfold FirstOccurrence; infer_instance

/-- The characters the `io.xprint` calls of a run put on the screen, in order. -/
def screen : List Ev → List Char
  | [] => []
  | Ev.xprint t :: rest => t ++ screen rest
  | _ :: rest => screen rest

/-- The scenario of the specification: the jails 1 "alpha", whose accounting blob is
"pcpu=12,memoryuse=2048", and 2 "beta", whose query fails with error 13; the
enumeration ends with `ENOENT`. -/
def scenarioPass : PassEnv :=
  ⟨[(1, "alpha".toList), (2, "beta".toList)], ENOENT,
   fun q => if q = "jail:alpha:cputime".toList then Racct.blob "pcpu=12,memoryuse=2048".toList
            else Racct.error 13⟩

/-- A system where accounting is enabled and every pass is `scenarioPass`; `smart`
tells whether the standard output is a smart terminal. -/
def scenarioWorld (smart : Bool) : World :=
  ⟨0, 0, 1, true, true, smart, smart, true, '.', fun _ => "Permission denied".toList,
   fun _ => scenarioPass⟩

/-- A system on a smart terminal whose locale writes the decimal point as a comma;
every pass finds the jail 1 "alpha" with the accounting blob
"memoryuse=10485760000". -/
def commaWorld : World :=
  ⟨0, 0, 1, true, true, true, true, true, ',', fun _ => [],
   fun _ => ⟨[(1, "alpha".toList)], ENOENT,
     fun _ => Racct.blob "memoryuse=10485760000".toList⟩⟩

/-- The startup of `main` reaches the sampling loop: the accounting checks and the
`jailparam` calls succeed, and on a smart terminal `initscr` sets up the terminal. -/
def Started (w : World) : Prop :=
  ¬ (w.sysctl_rv = -1 ∧ w.sysctl_errno = ENOENT) ∧ w.ena ≠ 0 ∧
  w.jailparam_init_ok = true ∧ w.jailparam_import_ok = true ∧
  (init_io w = true → w.initscr_ok = true)

/-- The text `t` is a decimal numeral of `n`: optional white space, an optional plus
sign, and a non-empty run of decimal digits that denotes `n`. -/
def IsNumeral (t : CStr) (n : Nat) : Prop :=
  ∃ ws sign ds : CStr, t = ws ++ (sign ++ ds) ∧ (∀ c ∈ ws, isspace c = true) ∧
    (sign = [] ∨ sign = ['+']) ∧ ds ≠ [] ∧ (∀ c ∈ ds, isdigit c = true) ∧ numberOf ds = n

/-- The argument of the last occurrence of the option `c` on the command line. -/
def lastOpt (c : Char) : List (Char × CStr) → Option CStr
  | [] => none
  | o :: rest =>
    match lastOpt c rest with
    | some t => some t
    | none => if o.1 = c then some o.2 else none

/-- The number the command line gives with the option `c`: the numeral of its last
occurrence; `dflt` when the option does not occur. -/
def Given (c : Char) (dflt : Nat) (opts : List (Char × CStr)) (v : Nat) : Prop :=
  match lastOpt c opts with
  | some t => IsNumeral t v
  | none => v = dflt

/-- A command line of counts and intervals in range: every option is `-d` with a
numeral of at most `INT_MAX`, or `-s` with a numeral between 1 and `INT_MAX`. -/
def ValidOpts (opts : List (Char × CStr)) : Prop :=
  ∀ o ∈ opts,
    (o.1 = 'd' ∧ ∃ m, IsNumeral o.2 m ∧ m ≤ 2147483647) ∨
    (o.1 = 's' ∧ ∃ m, IsNumeral o.2 m ∧ 1 ≤ m ∧ m ≤ 2147483647)

instance (w : World) : Decidable (Started w) := by
  unfold Started; infer_instance

/-- In the pass `env` the enumerator yields at least one jail, ends without a hard
error, and no accounting query reports that the subsystem is unsupported. -/
def PassOk (env : PassEnv) : Prop :=
  env.jails ≠ [] ∧ env.errno = ENOENT ∧
  ∀ j ∈ env.jails, env.rctl_get_racct (print_jail_q j.2) ≠ Racct.error ENOSYS

instance (env : PassEnv) : Decidable (PassOk env) := by
  unfold PassOk; infer_instance

/-- A system like `scenarioWorld true`, except that the accounting queries of every pass
fail with `ENOSYS`. -/
def unsupportedWorld : World :=
  ⟨0, 0, 1, true, true, true, true, true, '.', fun _ => "Function not implemented".toList,
   fun _ => ⟨[(1, "alpha".toList), (2, "beta".toList)], ENOENT, fun _ => Racct.error ENOSYS⟩⟩

/-- What pass number `k` writes, the closing `io.xrefresh()` included. -/
def passOut (w : World) (k : Nat) : List Ev := (one_pass w (w.passes k)).out

/-- The number of calls to `sleep` in a run. -/
def sleepCount : List Ev → Nat
  | [] => 0
  | Ev.sleep _ :: rest => sleepCount rest + 1
  | _ :: rest => sleepCount rest

/-- An event of the row and header renderers: a call of `io.xclear`, `io.xattron`,
`io.xattroff` or `io.xprint`. -/
def isRenderEv : Ev → Bool
  | Ev.xclear => true
  | Ev.xattron => true
  | Ev.xattroff => true
  | Ev.xprint _ => true
  | _ => false

/-! ## Lemmas on the libc string functions -/

theorem char_eq_of_toNat_eq {a b : Char} (h : a.toNat = b.toNat) : a = b := by
  have := congrArg Char.ofNat h
  simpa using this

theorem strcmp_self (a : CStr) : strcmp a a = 0 := by
  induction a with
  | nil => rfl
  | cons x xs ih => simp [strcmp, ih]

theorem strcmp_eq_zero_iff (a b : CStr) (ha : NulFree a) (hb : NulFree b) :
    strcmp a b = 0 ↔ a = b := by
  constructor
  · intro h
    induction a generalizing b with
    | nil =>
      cases b with
      | nil => rfl
      | cons y ys =>
        exfalso
        have hy := hb y (List.mem_cons_self _ _)
        simp only [strcmp] at h
        omega
    | cons x xs ih =>
      cases b with
      | nil =>
        exfalso
        have hx := ha x (List.mem_cons_self _ _)
        simp only [strcmp] at h
        omega
      | cons y ys =>
        simp only [strcmp] at h
        by_cases hxy : x = y
        · rw [if_pos hxy] at h
          have hxs : NulFree xs := fun c hc => ha c (List.mem_cons_of_mem _ hc)
          have hys : NulFree ys := fun c hc => hb c (List.mem_cons_of_mem _ hc)
          rw [hxy, ih ys hxs hys h]
        · rw [if_neg hxy] at h
          exact absurd (char_eq_of_toNat_eq (by omega)) hxy
  · intro h
    rw [h]
    exact strcmp_self b

theorem find_metric_from_none (name : CStr) (hn : NulFree name) (tbl : List Metric)
    (htbl : ∀ m ∈ tbl, NulFree m.label ∧ NulFree m.name)
    (hne : ∀ m ∈ tbl, name ≠ m.label ∧ name ≠ m.name) (i : Nat) :
    find_metric_from name tbl i = none := by
  induction tbl generalizing i with
  | nil => rfl
  | cons m rest ih =>
    have h1 := htbl m (List.mem_cons_self _ _)
    have h2 := hne m (List.mem_cons_self _ _)
    have hl : strcmp m.label name ≠ 0 := fun h =>
      h2.1 ((strcmp_eq_zero_iff _ _ h1.1 hn).1 h).symm
    have hm : strcmp m.name name ≠ 0 := fun h =>
      h2.2 ((strcmp_eq_zero_iff _ _ h1.2 hn).1 h).symm
    simp only [find_metric_from, hl, hm, or_self, if_false]
    exact ih (fun m hm => htbl m (List.mem_cons_of_mem _ hm))
      (fun m hm => hne m (List.mem_cons_of_mem _ hm)) (i + 1)

theorem all_metrics_nulFree : ∀ m ∈ all_metrics, NulFree m.label ∧ NulFree m.name := by
  decide

theorem accDigits_snoc (ds : List Char) (c : Char) :
    accDigits (ds ++ [c]) = accDigits ds * 10 + (c.toNat - 48) := by
  simp [accDigits, List.foldl_append]

theorem accDigits_eq_numberOf (ds : List Char) : accDigits ds = numberOf ds := by
  induction ds using List.reverseRecOn with
  | nil => simp [accDigits, numberOf]
  | append_singleton ds c ih =>
    rw [accDigits_snoc, ih]
    simp only [numberOf, List.reverse_append, List.reverse_cons, List.reverse_nil,
      List.nil_append, List.singleton_append, List.map_cons, Nat.ofDigits_cons]
    omega

theorem strstr_none_of_not_infix (key : CStr) :
    ∀ blob : CStr, ¬ key <:+: blob → strstr blob key = none := by
  intro blob
  induction blob with
  | nil =>
    intro h
    have hk : key ≠ [] := fun hk => h (hk ▸ List.infix_refl [])
    cases key with
    | nil => exact absurd rfl hk
    | cons k ks => simp [strstr, List.isPrefixOf]
  | cons c blob ih =>
    intro h
    have hp : key.isPrefixOf (c :: blob) = false := by
      cases hpre : key.isPrefixOf (c :: blob) with
      | false => rfl
      | true => exact absurd (List.IsPrefix.isInfix (List.isPrefixOf_iff_prefix.1 hpre)) h
    have ht : ¬ key <:+: blob := fun hi => h (hi.trans (List.suffix_cons c blob).isInfix)
    simp only [strstr, hp, Bool.false_eq_true, if_false]
    exact ih ht

theorem strstr_prefix (key rest : CStr) : strstr (key ++ rest) key = some (key ++ rest) := by
  have hp : key.isPrefixOf (key ++ rest) = true :=
    List.isPrefixOf_iff_prefix.2 (List.prefix_append key rest)
  cases h : key ++ rest with
  | nil =>
    have hk : key = [] := (List.append_eq_nil.1 h).1
    simp [strstr, hk, List.isPrefixOf]
  | cons c t =>
    rw [h] at hp
    simp [strstr, hp]

theorem strstr_first_occurrence (key : CStr) :
    ∀ (pre blob rest : CStr), FirstOccurrence blob key pre rest →
      strstr blob key = some (key ++ rest) := by
  intro pre
  induction pre with
  | nil =>
    intro blob rest h
    rw [h.1, List.nil_append]
    exact strstr_prefix key rest
  | cons p pre ih =>
    intro blob rest h
    obtain ⟨hb, hmin⟩ := h
    have hp : key.isPrefixOf (p :: (pre ++ (key ++ rest))) = false := by
      cases hpre : key.isPrefixOf (p :: (pre ++ (key ++ rest))) with
      | false => rfl
      | true =>
        have h0 := hmin 0 (by simp)
        rw [hb, List.drop_zero, List.cons_append] at h0
        exact absurd (List.isPrefixOf_iff_prefix.1 hpre) h0
    rw [hb, List.cons_append]
    simp only [strstr, hp, Bool.false_eq_true, if_false]
    apply ih (pre ++ (key ++ rest)) rest
    refine ⟨rfl, ?_⟩
    intro n hn
    have := hmin (n + 1) (by simpa using hn)
    rw [hb, List.cons_append, List.drop_succ_cons] at this
    exact this

theorem eqThenNumber_split :
    ∀ (pre post : CStr), EqThenNumber (pre ++ '=' :: post) →
      numberOf (post.takeWhile isdigit) < 2 ^ 64 ∧
      (post.dropWhile isdigit = [] ∨ (post.dropWhile isdigit).head? = some ',') := by
  intro pre
  induction pre with
  | nil =>
    intro post h
    rw [List.nil_append, EqThenNumber] at h
    exact h.1 rfl
  | cons p pre ih =>
    intro post h
    rw [List.cons_append, EqThenNumber] at h
    exact ih post h.2

theorem strstr_skip (key : CStr) (c : Char) (rest : CStr) (hc : c ∉ key) :
    ∀ A : CStr, ¬ key <:+: A → strstr (A ++ c :: rest) key = strstr rest key := by
  intro A
  have hne : ∀ B : CStr, ¬ key <:+: B → key.isPrefixOf (B ++ c :: rest) = false := by
    intro B hB
    cases hpre : key.isPrefixOf (B ++ c :: rest) with
    | false => rfl
    | true =>
      exfalso
      have hk : key <+: B ++ c :: rest := List.isPrefixOf_iff_prefix.1 hpre
      rcases List.prefix_or_prefix_of_prefix hk (List.prefix_append B (c :: rest)) with h | h
      · exact hB h.isInfix
      · obtain ⟨t, ht⟩ := h
        rw [← ht] at hk
        have ht2 : t <+: c :: rest := (List.prefix_append_right_inj B).1 hk
        cases t with
        | nil => exact hB (by rw [← ht, List.append_nil])
        | cons d t2 =>
          have hd : d = c := by
            obtain ⟨u, hu⟩ := ht2
            simp only [List.cons_append, List.cons.injEq] at hu
            exact hu.1
          exact hc (by rw [← ht, hd]; simp)
  induction A with
  | nil =>
    intro h
    have := hne [] h
    rw [List.nil_append] at this ⊢
    simp only [strstr, this, Bool.false_eq_true, if_false]
  | cons a A ih =>
    intro h
    have := hne (a :: A) h
    rw [List.cons_append] at this ⊢
    simp only [strstr, this, Bool.false_eq_true, if_false]
    exact ih (fun hi => h (hi.trans (List.suffix_cons a A).isInfix))

theorem dropWhile_ne_eq_append (a post : CStr) (ha : '=' ∉ a) :
    (a ++ '=' :: post).dropWhile (fun c => c != '=') = '=' :: post := by
  induction a with
  | nil => simp [List.dropWhile]
  | cons x xs ih =>
    have hx : (x != '=') = true := by
      simp only [bne_iff_ne, ne_eq]
      exact fun h => ha (by simp [h])
    have hxs : '=' ∉ xs := fun h => ha (List.mem_cons_of_mem _ h)
    rw [List.cons_append, List.dropWhile_cons, if_pos hx]
    exact ih hxs

theorem dropWhile_ne_eq_nil (a : CStr) (ha : '=' ∉ a) :
    a.dropWhile (fun c => c != '=') = [] := by
  induction a with
  | nil => rfl
  | cons x xs ih =>
    have hx : (x != '=') = true := by
      simp only [bne_iff_ne, ne_eq]
      exact fun h => ha (by simp [h])
    have hxs : '=' ∉ xs := fun h => ha (List.mem_cons_of_mem _ h)
    rw [List.dropWhile_cons, if_pos hx]
    exact ih hxs

theorem isdigit_not_space_sign {c : Char} (h : isdigit c = true) :
    isspace c = false ∧ c ≠ '-' ∧ c ≠ '+' := by
  simp only [isdigit, Bool.and_eq_true, decide_eq_true_eq] at h
  refine ⟨?_, ?_, ?_⟩
  · simp only [isspace, Bool.or_eq_false_iff, Bool.and_eq_false_iff, decide_eq_false_iff_not]
    omega
  · intro hc
    rw [hc] at h
    revert h
    decide
  · intro hc
    rw [hc] at h
    revert h
    decide

theorem strtoull_plain (s : CStr)
    (hs : ∀ c, s.head? = some c → isspace c = false ∧ c ≠ '-' ∧ c ≠ '+')
    (hn : accDigits (s.takeWhile isdigit) < 2 ^ 64) :
    strtoull s = accDigits (s.takeWhile isdigit) := by
  have h1 : s.dropWhile isspace = s := by
    cases s with
    | nil => rfl
    | cons c t =>
      have := (hs c rfl).1
      rw [List.dropWhile_cons, this]
      simp
  have h2 : s.head? ≠ some '-' := fun h => (hs _ h).2.1 rfl
  have h3 : s.head? ≠ some '+' := fun h => (hs _ h).2.2 rfl
  have h4 : ¬ (ULLONG_MAX < accDigits (s.takeWhile isdigit)) := by
    unfold ULLONG_MAX
    omega
  simp only [strtoull, h1, h2, h3, or_self, if_false, h4, decide_False, Bool.false_eq_true]

theorem strtoull_number (post : CStr)
    (h1 : numberOf (post.takeWhile isdigit) < 2 ^ 64)
    (h2 : post.dropWhile isdigit = [] ∨ (post.dropWhile isdigit).head? = some ',') :
    strtoull post = numberOf (post.takeWhile isdigit) := by
  rw [← accDigits_eq_numberOf] at h1 ⊢
  apply strtoull_plain post _ h1
  intro c hc
  cases post with
  | nil => simp at hc
  | cons d t =>
    simp only [List.head?_cons, Option.some.injEq] at hc
    subst hc
    by_cases hd : isdigit d = true
    · exact isdigit_not_space_sign hd
    · have hdw : (d :: t).dropWhile isdigit = d :: t := by
        rw [List.dropWhile_cons, if_neg hd]
      rw [hdw] at h2
      rcases h2 with h2 | h2
      · exact absurd h2 (List.cons_ne_nil _ _)
      · simp only [List.head?_cons, Option.some.injEq] at h2
        subst h2
        decide

theorem takeWhile_digits_append (v tail : CStr) (hv : ∀ c ∈ v, isdigit c = true)
    (ht : ∀ c, tail.head? = some c → isdigit c = false) :
    (v ++ tail).takeWhile isdigit = v ∧ (v ++ tail).dropWhile isdigit = tail := by
  induction v with
  | nil =>
    cases tail with
    | nil => exact ⟨rfl, rfl⟩
    | cons c t =>
      have := ht c rfl
      simp [List.takeWhile_cons, List.dropWhile_cons, this]
  | cons x xs ih =>
    have hx := hv x (List.mem_cons_self _ _)
    have := ih (fun c hc => hv c (List.mem_cons_of_mem _ hc))
    simp [List.takeWhile_cons, List.dropWhile_cons, hx, this.1, this.2]

theorem isLetter_not_digit {c : Char} (h : isLetter c = true) : isdigit c = false := by
  simp only [isLetter, Bool.or_eq_true, Bool.and_eq_true, decide_eq_true_eq] at h
  simp only [isdigit, Bool.and_eq_false_iff, decide_eq_false_iff_not]
  omega

theorem isLetter_ne_sep {c : Char} (h : isLetter c = true) : c ≠ '=' ∧ c ≠ ',' := by
  constructor <;>
  · intro hc
    rw [hc] at h
    revert h
    decide

theorem renderBlob_cons_cons (p q : CStr × CStr) (rest : List (CStr × CStr)) :
    renderBlob (p :: q :: rest) = p.1 ++ '=' :: (p.2 ++ ',' :: renderBlob (q :: rest)) := by
  rw [renderBlob]
  simp

theorem strstr_renderBlob_skip (k : CStr) (hk : k ≠ []) (hkl : ∀ c ∈ k, isLetter c = true)
    (q : CStr × CStr) (after : List (CStr × CStr)) :
    ∀ before : List (CStr × CStr),
      (∀ p ∈ before, ¬ k <:+: p.1 ∧ ∀ c ∈ p.2, isdigit c = true) →
      strstr (renderBlob (before ++ q :: after)) k = strstr (renderBlob (q :: after)) k := by
  intro before
  induction before with
  | nil => intro _; rfl
  | cons p before ih =>
    intro h
    have hp := h p (List.mem_cons_self _ _)
    have heq : '=' ∉ k := fun hm => (isLetter_ne_sep (hkl _ hm)).1 rfl
    have hcomma : ',' ∉ k := fun hm => (isLetter_ne_sep (hkl _ hm)).2 rfl
    have hval : ¬ k <:+: p.2 := by
      intro hi
      cases k with
      | nil => exact hk rfl
      | cons c t =>
        have hc : c ∈ p.2 := hi.subset (List.mem_cons_self _ _)
        have h1 := hp.2 c hc
        have h2 := isLetter_not_digit (hkl c (List.mem_cons_self _ _))
        rw [h1] at h2
        exact absurd h2 (by decide)
    have hrest : before ++ q :: after = (before ++ q :: after).head (by simp) ::
        (before ++ q :: after).tail := by
      simp
    rw [List.cons_append, hrest, renderBlob_cons_cons, ← hrest,
      strstr_skip k '=' _ heq p.1 hp.1, strstr_skip k ',' _ hcomma p.2 hval]
    exact ih (fun p hp => h p (List.mem_cons_of_mem _ hp))

theorem findval_renderBlob (k v : CStr) (before after : List (CStr × CStr))
    (hk : k ≠ []) (hkl : ∀ c ∈ k, isLetter c = true)
    (hb : ∀ p ∈ before, ¬ k <:+: p.1 ∧ ∀ c ∈ p.2, isdigit c = true)
    (hv : IsValue v) :
    findval (renderBlob (before ++ (k, v) :: after)) k = numberOf v := by
  have heq : '=' ∉ k := fun hm => (isLetter_ne_sep (hkl _ hm)).1 rfl
  have htail : ∀ c, (if after.isEmpty then [] else ',' :: renderBlob after).head? = some c →
      isdigit c = false := by
    intro c hc
    cases after with
    | nil => simp at hc
    | cons a t =>
      simp only [List.isEmpty_cons, Bool.false_eq_true, if_false, List.head?_cons,
        Option.some.injEq] at hc
      subst hc
      decide
  have htw := takeWhile_digits_append v _ hv.2.1 htail
  have hshape : renderBlob ((k, v) :: after) =
      k ++ '=' :: (v ++ (if after.isEmpty then [] else ',' :: renderBlob after)) := by
    rw [renderBlob]
    simp
  have hnum : strtoull (v ++ (if after.isEmpty then [] else ',' :: renderBlob after)) =
      numberOf v := by
    have := strtoull_number (v ++ (if after.isEmpty then [] else ',' :: renderBlob after))
      (by rw [htw.1]; exact hv.2.2)
      (by
        rw [htw.2]
        cases after with
        | nil => left; rfl
        | cons a t => right; rfl)
    rw [this, htw.1]
  unfold findval
  rw [strstr_renderBlob_skip k hk hkl (k, v) after before hb, hshape, strstr_prefix]
  simp only [dropWhile_ne_eq_append k _ heq]
  exact hnum

/-! ## Lemmas on the output conversions -/

theorem digitChar_toNat (d : Nat) (h : d < 10) : (digitChar d).toNat - 48 = d := by
  interval_cases d <;> rfl

theorem digitChar_isdigit (d : Nat) : isdigit (digitChar d) = true := by
  unfold digitChar
  split <;> decide

theorem decimalAux_length_pos (f n : Nat) : 1 ≤ (decimalAux f n).length := by
  cases f with
  | zero => simp [decimalAux]
  | succ f =>
    rw [decimalAux]
    split <;> simp

theorem decimalAux_length_le_iff :
    ∀ (f n k : Nat), n ≤ f → 1 ≤ k → ((decimalAux f n).length ≤ k ↔ n < 10 ^ k) := by
  intro f
  induction f with
  | zero =>
    intro n k hn hk
    have h0 : n = 0 := by omega
    subst h0
    have : 0 < 10 ^ k := Nat.pow_pos (by norm_num)
    simp only [decimalAux, List.length_singleton, this, iff_true]
    exact hk
  | succ f ih =>
    intro n k hn hk
    rw [decimalAux]
    by_cases h10 : n < 10
    · rw [if_pos h10]
      have : 10 ^ 1 ≤ 10 ^ k := Nat.pow_le_pow_right (by norm_num) hk
      simp only [List.length_singleton]
      constructor
      · intro _; omega
      · intro _; exact hk
    · rw [if_neg h10]
      simp only [List.length_append, List.length_singleton]
      have hpos := decimalAux_length_pos f (n / 10)
      by_cases hk1 : k = 1
      · subst hk1
        constructor
        · intro h; omega
        · intro h; omega
      · have hk2 : 1 ≤ k - 1 := by omega
        have hdiv : n / 10 ≤ f := by omega
        have := ih (n / 10) (k - 1) hdiv hk2
        have hpow : 10 ^ k = 10 ^ (k - 1) * 10 := by
          rw [← Nat.pow_succ]
          congr 1
          omega
        rw [hpow]
        constructor
        · intro h
          have h2 : n / 10 < 10 ^ (k - 1) := this.1 (by omega)
          omega
        · intro h
          have h2 : n / 10 < 10 ^ (k - 1) := by omega
          have := this.2 h2
          omega

theorem decimal_length_le_iff (n k : Nat) (hk : 1 ≤ k) :
    (decimal n).length ≤ k ↔ n < 10 ^ k :=
  decimalAux_length_le_iff n n k (Nat.le_refl n) hk

theorem accDigits_decimalAux : ∀ (f n : Nat), n ≤ f → accDigits (decimalAux f n) = n := by
  intro f
  induction f with
  | zero =>
    intro n hn
    have h0 : n = 0 := by omega
    subst h0
    rfl
  | succ f ih =>
    intro n hn
    rw [decimalAux]
    by_cases h10 : n < 10
    · rw [if_pos h10]
      have := digitChar_toNat n h10
      simp only [accDigits, List.foldl_cons, List.foldl_nil]
      omega
    · rw [if_neg h10, accDigits_snoc, ih (n / 10) (by omega),
        digitChar_toNat (n % 10) (Nat.mod_lt _ (by norm_num))]
      omega

theorem numberOf_decimal (n : Nat) : numberOf (decimal n) = n := by
  rw [← accDigits_eq_numberOf]
  exact accDigits_decimalAux n n (Nat.le_refl n)

theorem decimalAux_all_digits : ∀ (f n : Nat), ∀ c ∈ decimalAux f n, isdigit c = true := by
  intro f
  induction f with
  | zero =>
    intro n c hc
    simp only [decimalAux, List.mem_singleton] at hc
    rw [hc]
    exact digitChar_isdigit _
  | succ f ih =>
    intro n c hc
    rw [decimalAux] at hc
    split at hc
    · simp only [List.mem_singleton] at hc
      rw [hc]
      exact digitChar_isdigit _
    · simp only [List.mem_append, List.mem_singleton] at hc
      rcases hc with hc | hc
      · exact ih _ c hc
      · rw [hc]
        exact digitChar_isdigit _

theorem roundHalfEven_bounds (num den : Nat) (hden : 0 < den) :
    2 * (den * roundHalfEven num den) ≤ 2 * num + den ∧
    2 * num ≤ 2 * (den * roundHalfEven num den) + den := by
  have hdm := Nat.div_add_mod num den
  have hr := Nat.mod_lt num hden
  unfold roundHalfEven
  simp only
  generalize num / den = q at hdm ⊢
  generalize num % den = r at hdm hr ⊢
  split
  · rename_i h
    rw [Nat.mul_add, Nat.mul_one]
    generalize den * q = t at hdm ⊢
    omega
  · rename_i h
    generalize den * q = t at hdm ⊢
    omega

theorem snprintf_of_short (size : Nat) (s : List Char) (h : s.length ≤ size - 1) :
    snprintf size s = s := by
  simp only [snprintf]
  exact List.take_of_length_le h

theorem toDouble_of_lt (v : Nat) (h : v < 2 ^ 53) : toDouble v = v := by
  simp only [toDouble, h, if_true]

theorem dropWhile_spaces (ws rest : CStr) (hws : ∀ c ∈ ws, isspace c = true)
    (hr : ∀ c, rest.head? = some c → isspace c = false) :
    (ws ++ rest).dropWhile isspace = rest := by
  induction ws with
  | nil =>
    cases rest with
    | nil => rfl
    | cons c t =>
      have := hr c rfl
      rw [List.nil_append, List.dropWhile_cons, this]
      simp
  | cons x xs ih =>
    have hx := hws x (List.mem_cons_self _ _)
    rw [List.cons_append, List.dropWhile_cons, hx]
    simp only [if_true]
    exact ih (fun c hc => hws c (List.mem_cons_of_mem _ hc))

theorem numeral_shape (t : CStr) (n : Nat) (h : IsNumeral t n) :
    ∃ d ds, isdigit d = true ∧ (∀ c ∈ ds, isdigit c = true) ∧ numberOf (d :: ds) = n ∧
      (t.dropWhile isspace = d :: ds ∨ t.dropWhile isspace = '+' :: d :: ds) := by
  obtain ⟨ws, sign, ds, rfl, hws, hsign, hne, hdig, hnum⟩ := h
  cases ds with
  | nil => exact absurd rfl hne
  | cons d ds =>
    have hd := hdig d (List.mem_cons_self _ _)
    refine ⟨d, ds, hd, fun c hc => hdig c (List.mem_cons_of_mem _ hc), hnum, ?_⟩
    rcases hsign with hs | hs
    · left
      rw [hs, List.nil_append]
      apply dropWhile_spaces ws _ hws
      intro c hc
      simp only [List.head?_cons, Option.some.injEq] at hc
      rw [← hc]
      exact (isdigit_not_space_sign hd).1
    · right
      rw [hs]
      apply dropWhile_spaces ws _ hws
      intro c hc
      simp only [List.singleton_append, List.head?_cons, Option.some.injEq] at hc
      rw [← hc]
      decide

theorem numeral_unique (t : CStr) (m n : Nat) (hm : IsNumeral t m) (hn : IsNumeral t n) :
    m = n := by
  obtain ⟨d1, ds1, hd1, _, hnum1, hs1⟩ := numeral_shape t m hm
  obtain ⟨d2, ds2, hd2, _, hnum2, hs2⟩ := numeral_shape t n hn
  have hp1 := (isdigit_not_space_sign hd1).2.2
  have hp2 := (isdigit_not_space_sign hd2).2.2
  rcases hs1 with h1 | h1 <;> rcases hs2 with h2 | h2 <;> rw [h1] at h2
  · rw [← hnum1, ← hnum2, h2]
  · simp only [List.cons.injEq] at h2
    exact absurd h2.1 hp1
  · simp only [List.cons.injEq] at h2
    exact absurd h2.1.symm hp2
  · simp only [List.cons.injEq, true_and] at h2
    rw [← hnum1, ← hnum2, h2.1, h2.2]

theorem strtol_numeral (t : CStr) (n : Nat) (h : IsNumeral t n) (hn : n < 2 ^ 63) :
    strtol t = ((n : Int), []) := by
  obtain ⟨d, ds, hd, hds, hnum, hs⟩ := numeral_shape t n h
  have hdig : ∀ c ∈ d :: ds, isdigit c = true := by
    intro c hc
    rcases List.mem_cons.1 hc with hc | hc
    · rw [hc]; exact hd
    · exact hds c hc
  have htw := takeWhile_digits_append (d :: ds) [] hdig (by simp)
  rw [List.append_nil] at htw
  have hacc : accDigits (d :: ds) = n := by rw [accDigits_eq_numberOf, hnum]
  have hsign := isdigit_not_space_sign hd
  have hle : (n : Int) ≤ 2 ^ 63 - 1 := by
    have : (n : Int) < 2 ^ 63 := by exact_mod_cast hn
    omega
  have hge : -(2 ^ 63 : Int) ≤ (n : Int) := by
    have : (0 : Int) ≤ (n : Int) := Int.ofNat_nonneg n
    have h63 : (0 : Int) < 2 ^ 63 := by norm_num
    omega
  have hne : d :: ds ≠ [] := List.cons_ne_nil _ _
  rcases hs with hs | hs
  · have h2 : (d :: ds).head? ≠ some '-' := by
      simp only [List.head?_cons, ne_eq, Option.some.injEq]
      exact hsign.2.1
    have h3 : (d :: ds).head? ≠ some '+' := by
      simp only [List.head?_cons, ne_eq, Option.some.injEq]
      exact hsign.2.2
    simp only [strtol, hs, h2, h3, or_self, if_false, htw.1, htw.2, hne, hacc]
    rw [min_eq_left hle, max_eq_right hge]
  · have hpm : ¬ ('+' : Char) = '-' := by decide
    simp only [strtol, hs, List.head?_cons, Option.some.injEq, hpm, or_true, if_true,
      if_false, List.tail_cons, htw.1, htw.2, hne, hacc]
    rw [min_eq_left hle, max_eq_right hge]

theorem toInt32_of_small (x : Int) (h0 : 0 ≤ x) (h1 : x ≤ INT_MAX) : toInt32 x = x := by
  unfold INT_MAX at h1
  unfold toInt32
  norm_num
  omega

theorem given_cons_same (c : Char) (d m v : Nat) (o : Char × CStr)
    (rest : List (Char × CStr)) (ho : o.1 = c) (hm : IsNumeral o.2 m)
    (h : Given c d (o :: rest) v) : Given c m rest v := by
  unfold Given at h ⊢
  rw [lastOpt] at h
  cases hl : lastOpt c rest with
  | some t =>
    rw [hl] at h
    exact h
  | none =>
    rw [hl] at h
    simp only [ho, if_true] at h
    exact numeral_unique o.2 v m h hm

theorem given_cons_other (c : Char) (d v : Nat) (o : Char × CStr)
    (rest : List (Char × CStr)) (ho : o.1 ≠ c)
    (h : Given c d (o :: rest) v) : Given c d rest v := by
  unfold Given at h ⊢
  rw [lastOpt] at h
  cases hl : lastOpt c rest with
  | some t =>
    rw [hl] at h
    exact h
  | none =>
    rw [hl] at h
    simp only [ho, if_false] at h
    exact h

theorem parse_opts_given :
    ∀ (opts : List (Char × CStr)) (c i n itv : Nat), ValidOpts opts →
      Given 'd' c opts n → Given 's' i opts itv →
      parse_opts opts (c : Int) (i : Int) = Except.ok ((n : Int), (itv : Int)) := by
  intro opts
  induction opts with
  | nil =>
    intro c i n itv _ hd hi
    simp only [Given, lastOpt] at hd hi
    rw [parse_opts, hd, hi]
  | cons o rest ih =>
    intro c i n itv hv hd hi
    have hrest : ValidOpts rest := fun x hx => hv x (List.mem_cons_of_mem _ hx)
    have hsd : ('s' : Char) ≠ 'd' := by decide
    rcases hv o (List.mem_cons_self _ _) with ⟨ho, m, hm, hmax⟩ | ⟨ho, m, hm, hmin, hmax⟩
    · have hos : o.1 ≠ 's' := by rw [ho]; exact hsd.symm
      have hst := strtol_numeral o.2 m hm (by omega)
      have h32 := toInt32_of_small (m : Int) (Int.ofNat_nonneg m)
        (by unfold INT_MAX; omega)
      have hneg : ¬ ((m : Int) < 0) := by omega
      obtain ⟨oc, oa⟩ := o
      simp only at ho hos hst
      rw [parse_opts]
      simp only [hos, if_false, ho, if_true, hst, h32, hneg, ne_eq, not_true_eq_false, or_self]
      exact ih m i n itv hrest (given_cons_same 'd' c m n (oc, oa) rest ho hm hd)
        (given_cons_other 's' i itv (oc, oa) rest hos hi)
    · have hod : o.1 ≠ 'd' := by rw [ho]; exact hsd
      have hst := strtol_numeral o.2 m hm (by omega)
      have h32 := toInt32_of_small (m : Int) (Int.ofNat_nonneg m)
        (by unfold INT_MAX; omega)
      have hpos : ¬ ((m : Int) ≤ 0) := by omega
      obtain ⟨oc, oa⟩ := o
      simp only at ho hod hst
      rw [parse_opts]
      simp only [ho, if_true, hst, h32, hpos, ne_eq, not_true_eq_false, or_self, if_false]
      exact ih c m n itv hrest (given_cons_other 'd' c n (oc, oa) rest hod hd)
        (given_cons_same 's' i m itv (oc, oa) rest ho hm hi)

theorem print_cells_render (dp : Char) (buf : CStr) (ms : List Metric) :
    (print_cells dp buf ms).all isRenderEv = true := by
  induction ms with
  | nil => rfl
  | cons m rest ih =>
    cases hp : m.print <;>
      simp [print_cells, call_print, hp, print_n, print_nmp, isRenderEv, ih]

theorem print_jail_render (dp : Char) (rctl_get_racct : CStr → Racct) (strerror : Int → CStr)
    (ms : List Metric) (jid : Int) (name : CStr) :
    (print_jail dp rctl_get_racct strerror ms jid name).out.all isRenderEv = true := by
  unfold print_jail
  cases rctl_get_racct (print_jail_q name) with
  | blob buf => simp [print_jail_row, isRenderEv, print_cells_render]
  | error errno =>
    by_cases h : errno = ENOSYS <;> simp [h, print_jail_row, isRenderEv]

theorem print_jail_returns (dp : Char) (rctl_get_racct : CStr → Racct)
    (strerror : Int → CStr) (ms : List Metric) (jid : Int) (name : CStr)
    (h : rctl_get_racct (print_jail_q name) ≠ Racct.error ENOSYS) :
    (print_jail dp rctl_get_racct strerror ms jid name).exit = none := by
  unfold print_jail
  cases hq : rctl_get_racct (print_jail_q name) with
  | blob buf => rfl
  | error errno =>
    have hne : errno ≠ ENOSYS := fun he => h (by rw [hq, he])
    simp [hne]

theorem print_headers_render : (print_headers metrics).all isRenderEv = true := by
  decide

theorem jail_loop_render (w : World) (env : PassEnv) :
    ∀ (js : List (Int × CStr)) (n : Int),
      (jail_loop w env js n).1.out.all isRenderEv = true := by
  intro js
  induction js with
  | nil => intro n; rfl
  | cons j rest ih =>
    intro n
    obtain ⟨jid, name⟩ := j
    rw [jail_loop]
    have hh : (if n + 1 = 1 then print_headers metrics else []).all isRenderEv = true := by
      split
      · exact print_headers_render
      · rfl
    have hj := print_jail_render (locale_radix w) env.rctl_get_racct w.strerror metrics
      jid name
    cases hx : (print_jail (locale_radix w) env.rctl_get_racct w.strerror metrics
      jid name).exit with
    | some c => simp only [List.all_append, hh, hj, Bool.and_self]
    | none => simp only [List.all_append, hh, hj, ih (n + 1), Bool.and_self]

theorem jail_loop_returns (w : World) (env : PassEnv) :
    ∀ (js : List (Int × CStr)) (n : Int),
      (∀ j ∈ js, env.rctl_get_racct (print_jail_q j.2) ≠ Racct.error ENOSYS) →
      (jail_loop w env js n).1.exit = none ∧ (jail_loop w env js n).2 = n + js.length := by
  intro js
  induction js with
  | nil => intro n _; simp [jail_loop]
  | cons j rest ih =>
    intro n h
    obtain ⟨jid, name⟩ := j
    have hx := print_jail_returns (locale_radix w) env.rctl_get_racct w.strerror metrics
      jid name
      (h (jid, name) (List.mem_cons_self _ _))
    have := ih (n + 1) (fun j hj => h j (List.mem_cons_of_mem _ hj))
    rw [jail_loop]
    simp only [hx, this.1, this.2, List.length_cons, Nat.cast_add, Nat.cast_one, true_and]
    omega

theorem render_counts (out : List Ev) (h : out.all isRenderEv = true) :
    out.count Ev.xrefresh = 0 ∧ sleepCount out = 0 := by
  induction out with
  | nil => exact ⟨rfl, rfl⟩
  | cons e rest ih =>
    simp only [List.all_cons, Bool.and_eq_true] at h
    have := ih h.2
    cases e <;> simp_all [isRenderEv, sleepCount, List.count_cons]

theorem sleepCount_append (a b : List Ev) :
    sleepCount (a ++ b) = sleepCount a + sleepCount b := by
  induction a with
  | nil => simp [sleepCount]
  | cons e rest ih =>
    cases e <;> simp [sleepCount, ih]
    omega

theorem one_pass_ok (w : World) (env : PassEnv) (h : PassOk env) :
    (one_pass w env).exit = none ∧
    (one_pass w env).out.count Ev.xrefresh = 1 ∧ sleepCount (one_pass w env).out = 0 := by
  obtain ⟨hne, herr, hq⟩ := h
  have hj := jail_loop_returns w env env.jails 0 hq
  have hr := render_counts _ (jail_loop_render w env env.jails 0)
  have hlen : (0 : Int) + (env.jails.length : Int) ≠ 0 := by
    have : 0 < env.jails.length := List.length_pos.2 hne
    omega
  have hn : (jail_loop w env env.jails 0).2 ≠ 0 := by rw [hj.2]; exact hlen
  unfold one_pass
  simp only [hj.1, herr, ne_eq, not_true_eq_false, if_false, hn]
  refine ⟨trivial, ?_, ?_⟩
  · rw [List.count_append, hr.1]
    rfl
  · rw [sleepCount_append, hr.2]
    rfl

theorem intercalate_cons_cons (sep a b : List Ev) (rest : List (List Ev)) :
    List.intercalate sep (a :: b :: rest) = a ++ sep ++ List.intercalate sep (b :: rest) := by
  simp [List.intercalate, List.intersperse]

theorem sampling_loop_ok (w : World) (itv : Int) :
    ∀ (n k : Nat), (∀ j < n + 1, PassOk (w.passes (k + j))) →
      sampling_loop w itv (n + 1) k =
        ⟨List.intercalate [Ev.sleep itv, Ev.puts []] ((List.range' k (n + 1)).map (passOut w)),
          some 0⟩ ∧
      (sampling_loop w itv (n + 1) k).out.count Ev.xrefresh = n + 1 ∧
      sleepCount (sampling_loop w itv (n + 1) k).out = n := by
  intro n
  induction n with
  | zero =>
    intro k h
    have hp := one_pass_ok w (w.passes k) (by simpa using h 0 (by norm_num))
    have hs : sampling_loop w itv 1 k = ⟨passOut w k, some 0⟩ := by
      rw [sampling_loop]
      simp only [hp.1, passOut]
    rw [hs]
    refine ⟨?_, hp.2.1, hp.2.2⟩
    simp [List.range', List.intercalate, List.intersperse]
  | succ n ih =>
    intro k h
    have hp := one_pass_ok w (w.passes k) (by simpa using h 0 (by omega))
    have hrec := ih (k + 1) (fun j hj => by
      have := h (j + 1) (by omega)
      rwa [show k + (j + 1) = k + 1 + j by omega] at this)
    have hs : sampling_loop w itv (n + 1 + 1) k =
        ⟨passOut w k ++ [Ev.sleep itv, Ev.puts []] ++ (sampling_loop w itv (n + 1) (k + 1)).out,
          (sampling_loop w itv (n + 1) (k + 1)).exit⟩ := by
      rw [sampling_loop]
      simp only [hp.1, passOut]
    rw [hs]
    refine ⟨?_, ?_, ?_⟩
    · rw [hrec.1]
      have hr : List.range' k (n + 1 + 1) = k :: List.range' (k + 1) (n + 1) := rfl
      have hr2 : List.range' (k + 1) (n + 1) = (k + 1) :: List.range' (k + 1 + 1) n := rfl
      rw [hr, hr2]
      simp only [List.map_cons]
      rw [intercalate_cons_cons]
    · simp only [List.count_append]
      rw [hrec.2.1]
      have : passOut w k = (one_pass w (w.passes k)).out := rfl
      rw [this, hp.2.1]
      simp [List.count_cons]
      omega
    · simp only [sleepCount_append]
      rw [hrec.2.2]
      have : passOut w k = (one_pass w (w.passes k)).out := rfl
      rw [this, hp.2.2]
      simp [sleepCount]
      omega

/-! ## The registry lookup -/

/-- C3: for every entry `m` of `all_metrics`, `find_metric` on its label and on
its canonical name returns the position of that same entry (so "mem" and
"memoryuse" give the same entry); and every C string that is equal to no label
and to no canonical name of the registry gives the null pointer, as do
"nonexistent", "MEM" and "memory". -/
theorem find_metric_spec :
    (∀ m ∈ all_metrics,
      find_metric m.label = find_metric m.name ∧
      (find_metric m.label).bind all_metrics.get? = some m) ∧
    find_metric "mem".toList = find_metric "memoryuse".toList ∧
    (∀ s : CStr, NulFree s → (∀ m ∈ all_metrics, s ≠ m.label ∧ s ≠ m.name) →
      find_metric s = none) ∧
    find_metric "nonexistent".toList = none ∧
    find_metric "MEM".toList = none ∧
    find_metric "memory".toList = none := by
  refine ⟨by decide, by decide, ?_, by decide, by decide, by decide⟩
  intro s hs hne
  exact find_metric_from_none s hs all_metrics all_metrics_nulFree hne 0

/-- Witness of C3: the string "cpu" is no label and no name, and is not found. -/
theorem find_metric_spec_witness :
    NulFree "cpu".toList ∧ (∀ m ∈ all_metrics, "cpu".toList ≠ m.label ∧ "cpu".toList ≠ m.name) ∧
    find_metric "cpu".toList = none :=
  ⟨by decide, by decide, find_metric_spec.2.2.1 "cpu".toList (by decide) (by decide)⟩

/-! ## The blob decoder -/

/-- C2: on a text in which every `=` is followed by a possibly empty run of digits below
`2 ^ 64` and then a comma or the end, `findval` is 0 when the key is no substring
of the text or no `=` stands at or after its first occurrence, and otherwise
the number written right after the first `=` at or after the first occurrence
of the key; with the three documented sample decodings. -/
theorem findval_spec :
    (∀ blob key : CStr, EqThenNumber blob →
      (¬ key <:+: blob → findval blob key = 0) ∧
      (∀ pre rest, FirstOccurrence blob key pre rest →
        ('=' ∉ key ++ rest → findval blob key = 0) ∧
        (∀ a post, key ++ rest = a ++ '=' :: post → '=' ∉ a →
          findval blob key = numberOf (post.takeWhile isdigit)))) ∧
    findval "cputime=5,datasize=100".toList "datasize".toList = 100 ∧
    findval "cputime=5".toList "missing".toList = 0 ∧
    findval "readbps=5,readiops=2".toList "read".toList = 5 := by
  refine ⟨?_, by decide, by decide, by decide⟩
  intro blob key hwf
  refine ⟨?_, ?_⟩
  · intro hno
    simp only [findval, strstr_none_of_not_infix key blob hno]
  · intro pre rest hfirst
    have hs := strstr_first_occurrence key pre blob rest hfirst
    refine ⟨?_, ?_⟩
    · intro hnoeq
      simp only [findval, hs, dropWhile_ne_eq_nil _ hnoeq]
    · intro a post hsplit ha
      have hpost := eqThenNumber_split (pre ++ a) post
        (by rw [List.append_assoc, ← hsplit, ← hfirst.1]; exact hwf)
      simp only [findval, hs, hsplit, dropWhile_ne_eq_append a post ha]
      exact strtoull_number post hpost.1 hpost.2

/-- Witness of C2: in "a=1,bb=22" the key "bb" first occurs after "a=1,", and the number
after the next `=` is 22. -/
theorem findval_spec_witness :
    EqThenNumber "a=1,bb=22".toList ∧
    FirstOccurrence "a=1,bb=22".toList "bb".toList "a=1,".toList "=22".toList ∧
    findval "a=1,bb=22".toList "bb".toList = numberOf "22".toList :=
  ⟨by decide, by decide,
   ((findval_spec.1 "a=1,bb=22".toList "bb".toList (by decide)).2
      "a=1,".toList "=22".toList (by decide)).2
    "bb".toList "22".toList (by decide) (by decide)⟩

/-- C10: in a blob of `key=value` pairs with non-empty keys of letters and decimal values
below `2 ^ 64`, `findval` returns the value of a key that is a substring of no key placed
before its pair.  Among the canonical names of the registry only "memoryuse" is a
substring of another ("vmemoryuse"), so in a blob keyed by registry names `findval`
is right for every metric (at the first pair of its name) when no "vmemoryuse"
pair stands before the "memoryuse" pair. -/
theorem findval_first_key :
    (∀ (before after : List (CStr × CStr)) (k v : CStr),
      (∀ p ∈ before ++ (k, v) :: after,
        p.1 ≠ [] ∧ (∀ c ∈ p.1, isLetter c = true) ∧ IsValue p.2) →
      (∀ p ∈ before, ¬ k <:+: p.1) →
      findval (renderBlob (before ++ (k, v) :: after)) k = numberOf v) ∧
    (∀ m1 ∈ all_metrics, ∀ m2 ∈ all_metrics, m1.name <:+: m2.name →
      m1 = m2 ∨ (m1.name = "memoryuse".toList ∧ m2.name = "vmemoryuse".toList)) ∧
    "memoryuse".toList <:+: "vmemoryuse".toList ∧
    (∀ m ∈ all_metrics, ∀ (before after : List (CStr × CStr)) (v : CStr),
      (∀ p ∈ before ++ (m.name, v) :: after,
        (∃ m2 ∈ all_metrics, p.1 = m2.name) ∧ IsValue p.2) →
      (∀ p ∈ before, p.1 ≠ m.name) →
      (m.name = "memoryuse".toList → ∀ p ∈ before, p.1 ≠ "vmemoryuse".toList) →
      findval (renderBlob (before ++ (m.name, v) :: after)) m.name = numberOf v) := by
  have hreg : ∀ m ∈ all_metrics, m.name ≠ [] ∧ ∀ c ∈ m.name, isLetter c = true := by decide
  have hsub : ∀ m1 ∈ all_metrics, ∀ m2 ∈ all_metrics, m1.name <:+: m2.name →
      m1 = m2 ∨ (m1.name = "memoryuse".toList ∧ m2.name = "vmemoryuse".toList) := by decide
  refine ⟨?_, hsub, by decide, ?_⟩
  · intro before after k v hwf hno
    have hkv := hwf (k, v) (by simp)
    apply findval_renderBlob k v before after hkv.1 hkv.2.1 _ hkv.2.2
    intro p hp
    exact ⟨hno p hp, (hwf p (by simp [hp])).2.2.2.1⟩
  · intro m hm before after v hwf hfirst hmem
    have hkv := hwf (m.name, v) (by simp)
    apply findval_renderBlob m.name v before after (hreg m hm).1 (hreg m hm).2 _ hkv.2
    intro p hp
    have hpw := hwf p (by simp [hp])
    refine ⟨?_, hpw.2.2.1⟩
    obtain ⟨m2, hm2, hp2⟩ := hpw.1
    intro hi
    rw [hp2] at hi
    rcases hsub m hm m2 hm2 hi with h | h
    · exact hfirst p hp (by rw [hp2, h])
    · exact hmem h.1 p hp (by rw [hp2, h.2])

/-- Witness of C10: in "vmemoryuse=5,swapuse=3,memoryuse=7" the key "swapuse" is found with
its value, "vmemoryuse" not being a superstring of it. -/
theorem findval_first_key_witness :
    findval (renderBlob ([("vmemoryuse".toList, "5".toList)] ++
      ("swapuse".toList, "3".toList) :: [("memoryuse".toList, "7".toList)])) "swapuse".toList
      = numberOf "3".toList :=
  findval_first_key.1 [("vmemoryuse".toList, "5".toList)] [("memoryuse".toList, "7".toList)]
    "swapuse".toList "3".toList (by decide) (by decide)

/-- C1 as stated fails: the blob "vmemoryuse=5,memoryuse=7" is well formed and has the key
"memoryuse" (the canonical name of the metric "mem") paired with 7, yet `findval`
returns 5, the value of "vmemoryuse". -/
theorem findval_any_order_counterexample :
    WellFormedBlob [("vmemoryuse".toList, "5".toList), ("memoryuse".toList, "7".toList)] ∧
    (∃ m ∈ all_metrics, m.label = "mem".toList ∧ m.name = "memoryuse".toList) ∧
    renderBlob [("vmemoryuse".toList, "5".toList), ("memoryuse".toList, "7".toList)]
      = "vmemoryuse=5,memoryuse=7".toList ∧
    findval "vmemoryuse=5,memoryuse=7".toList "memoryuse".toList = 5 ∧
    numberOf "7".toList = 7 := by
  decide

/-- C1, amended: for every metric of the registry and every well-formed blob that has the
canonical name of the metric as a key, `findval` returns the value paired with that key
provided no key placed before that pair contains the canonical name as a substring. -/
theorem findval_registry_name (m : Metric) (hm : m ∈ all_metrics)
    (before after : List (CStr × CStr)) (v : CStr)
    (hwf : WellFormedBlob (before ++ (m.name, v) :: after))
    (hno : ∀ p ∈ before, ¬ m.name <:+: p.1) :
    findval (renderBlob (before ++ (m.name, v) :: after)) m.name = numberOf v := by
  have hreg : ∀ m ∈ all_metrics, m.name ≠ [] ∧ ∀ c ∈ m.name, isLetter c = true := by decide
  have hkv := hwf.1 (m.name, v) (by simp)
  apply findval_renderBlob m.name v before after (hreg m hm).1 (hreg m hm).2 _ hkv.2.2
  intro p hp
  exact ⟨hno p hp, (hwf.1 p (by simp [hp])).2.2.2.1⟩

/-- Witness of C1, amended: "memoryuse" placed before "vmemoryuse" is decoded with its
own value. -/
theorem findval_registry_name_witness :
    findval (renderBlob ([("pcpu".toList, "12".toList)] ++
      ("memoryuse".toList, "7".toList) :: [("vmemoryuse".toList, "5".toList)]))
      "memoryuse".toList = numberOf "7".toList :=
  findval_registry_name ⟨"mem".toList, "memoryuse".toList, cw_mem, Printer.print_nmp⟩
    (by decide) [("pcpu".toList, "12".toList)] [("vmemoryuse".toList, "5".toList)]
    "7".toList (by decide) (by decide)

/-! ## The value formatters -/

/-- Below 9999 the magnitude-scaled formatter writes what the verbatim one writes. -/
theorem print_nmp_eq_print_n_below (dp : Char) (v : Nat) (w : Int) (h : v < 9999) :
    print_nmp dp v w = print_n v w := by
  have hlen : (decimal v).length ≤ 4 := (decimal_length_le_iff v 4 (by norm_num)).2 (by omega)
  simp only [print_nmp, print_n, print_nmp_text, print_n_text, print_nmp_buf, h, if_true]
  rw [snprintf_of_short 20 _ (by omega)]

/-- C4 fails at `v = 9999`, which is below 10,000: under every locale `print_nmp` takes
the kilobyte branch and writes "10K" right-justified, where `print_n` writes "9999". -/
theorem print_nmp_at_9999 :
    (∀ dp : Char, print_nmp dp 9999 6 = [Ev.xprint "   10K".toList]) ∧
    print_n 9999 6 = [Ev.xprint "  9999".toList] ∧
    (∀ dp : Char, print_nmp dp 9999 6 ≠ print_n 9999 6) := by
  have h1 : ∀ dp : Char, print_nmp dp 9999 6 = [Ev.xprint "   10K".toList] := by
    intro dp
    have hb : print_nmp_buf dp 9999 = print_nmp_buf '.' 9999 := by
      simp [print_nmp_buf, fmtFixed]
    have hd : print_nmp '.' 9999 6 = [Ev.xprint "   10K".toList] := by decide
    rw [← hd]
    simp only [print_nmp, print_nmp_text, hb]
  refine ⟨h1, by decide, ?_⟩
  intro dp
  rw [h1 dp]
  decide

/-- C6 as stated fails on a smart terminal whose locale writes the decimal point as a
comma: there `init_io` has called `setlocale(LC_ALL, "")`, and the value 10485760000
is rendered as "9,77G", not as "9.77G"; the whole program shows it in the row of a
jail whose `memoryuse` is 10485760000. -/
theorem print_nmp_giga_counterexample :
    init_io commaWorld = true ∧ locale_radix commaWorld = ',' ∧
    9999 * 1024 * 1024 < 10485760000 ∧ 10485760000 < 2 ^ 53 ∧
    print_nmp_buf (locale_radix commaWorld) 10485760000 = "9,77G".toList ∧
    print_nmp_buf (locale_radix commaWorld) 10485760000 ≠ "9.77G".toList ∧
    screen (main commaWorld [('d', "1".toList)]).out =
      ("jid  name                  cpu%     mem    r/s    read    w/s  writtn\n" ++
       "  1  alpha                    0   9,77G      0       0      0       0\n").toList := by
  decide

/-- C6, amended: for `9999 * 1024 * 1024 < v < 2 ^ 53` the text `print_nmp` builds before
justification is a run of digits, the decimal-point character of the locale in force,
exactly two digits and the suffix `G`; the number written, taken in hundredths, is within
half a hundredth of `v / 1024 ^ 3`.  The decimal point is a full stop when the output is
no smart terminal (the C locale) and the one of the environment's locale on a smart
terminal; with a full stop the value 10485760000 is rendered as "9.77G". -/
theorem print_nmp_giga :
    (∀ (dp : Char) (v : Nat), 9999 * 1024 * 1024 < v → v < 2 ^ 53 →
      ∃ (ip : List Char) (d1 d2 : Char),
        print_nmp_buf dp v = ip ++ [dp, d1, d2, 'G'] ∧
        ip ≠ [] ∧ (∀ c ∈ ip, isdigit c = true) ∧ isdigit d1 = true ∧ isdigit d2 = true ∧
        2 * (1024 ^ 3 * (numberOf ip * 100 + numberOf [d1, d2])) ≤ 2 * (100 * v) + 1024 ^ 3 ∧
        2 * (100 * v) ≤ 2 * (1024 ^ 3 * (numberOf ip * 100 + numberOf [d1, d2])) + 1024 ^ 3) ∧
    (∀ w : World, init_io w = false → locale_radix w = '.') ∧
    (∀ w : World, init_io w = true → locale_radix w = w.decimal_point) ∧
    print_nmp_buf '.' 10485760000 = "9.77G".toList := by
  refine ⟨?_, ?_, ?_, by decide⟩
  swap
  · intro w hw
    simp only [locale_radix, hw, Bool.false_eq_true, if_false]
  swap
  · intro w hw
    simp only [locale_radix, hw, if_true]
  intro dp v h1 h2
  have hb := roundHalfEven_bounds (v * 100) 1073741824 (by norm_num)
  have hbuf : print_nmp_buf dp v =
      decimal (roundHalfEven (v * 100) 1073741824 / 100) ++
        [dp, digitChar (roundHalfEven (v * 100) 1073741824 % 100 / 10),
          digitChar (roundHalfEven (v * 100) 1073741824 % 10), 'G'] := by
    have hlen : (decimal (roundHalfEven (v * 100) 1073741824 / 100)).length ≤ 15 := by
      rw [decimal_length_le_iff _ 15 (by norm_num)]
      generalize roundHalfEven (v * 100) 1073741824 = q at hb
      norm_num at h2 ⊢
      omega
    have hnot : ¬ v < 9999 := by omega
    have hmod : roundHalfEven (v * 100) 1073741824 % 100 / 10 % 10 =
        roundHalfEven (v * 100) 1073741824 % 100 / 10 := by omega
    have hmod2 : roundHalfEven (v * 100) 1073741824 % 100 % 10 =
        roundHalfEven (v * 100) 1073741824 % 10 := by omega
    simp only [print_nmp_buf, hnot, if_false, h1, if_true, toDouble_of_lt v h2, fmtFixed,
      fracDigits, hmod, hmod2]
    norm_num
    rw [snprintf_of_short]
    · rw [hmod]
    · simp
      omega
  refine ⟨_, _, _, hbuf, ?_, ?_, digitChar_isdigit _, digitChar_isdigit _, ?_⟩
  · intro h
    have := decimalAux_length_pos (roundHalfEven (v * 100) 1073741824 / 100)
      (roundHalfEven (v * 100) 1073741824 / 100)
    rw [decimal] at h
    rw [h] at this
    simp at this
  · intro c hc
    exact decimalAux_all_digits _ _ c hc
  · have hfrac : numberOf [digitChar (roundHalfEven (v * 100) 1073741824 % 100 / 10),
        digitChar (roundHalfEven (v * 100) 1073741824 % 10)] =
        roundHalfEven (v * 100) 1073741824 % 100 := by
      rw [← accDigits_eq_numberOf]
      simp only [accDigits, List.foldl_cons, List.foldl_nil]
      rw [digitChar_toNat _ (by omega), digitChar_toNat _ (by omega)]
      omega
    rw [numberOf_decimal, hfrac]
    generalize roundHalfEven (v * 100) 1073741824 = q at hb
    norm_num
    omega

/-- Witness of C6, amended: the value 12884901888 (12 GiB) under a locale with a comma
is rendered with the comma, two decimals and `G`. -/
theorem print_nmp_giga_witness :
    ∃ (ip : List Char) (d1 d2 : Char),
      print_nmp_buf ',' 12884901888 = ip ++ [',', d1, d2, 'G'] ∧
      ip ≠ [] ∧ (∀ c ∈ ip, isdigit c = true) ∧ isdigit d1 = true ∧ isdigit d2 = true ∧
      2 * (1024 ^ 3 * (numberOf ip * 100 + numberOf [d1, d2])) ≤
        2 * (100 * 12884901888) + 1024 ^ 3 ∧
      2 * (100 * 12884901888) ≤
        2 * (1024 ^ 3 * (numberOf ip * 100 + numberOf [d1, d2])) + 1024 ^ 3 :=
  print_nmp_giga.1 ',' 12884901888 (by norm_num) (by norm_num)

/-! ## Rows with a failed accounting query -/

/-- C9: when the accounting query of a jail fails with an error other than `ENOSYS`,
`print_jail` writes the id and name columns, then ": " and the error text in place of
the metric columns, then a newline, and returns; the inner loop of `main` goes on
with the jails that remain.  In the scenario with "alpha" and "beta" the pass writes a
header line, a populated row for "alpha" and an error row for "beta", and completes. -/
theorem print_jail_query_error :
    (∀ (dp : Char) (rctl_get_racct : CStr → Racct) (strerror : Int → CStr)
        (ms : List Metric) (jid : Int) (name : CStr) (errno : Int),
      rctl_get_racct (print_jail_q name) = Racct.error errno → errno ≠ ENOSYS →
      print_jail dp rctl_get_racct strerror ms jid name =
        ⟨[print_jail_row jid name, Ev.xprint (": ".toList ++ strerror errno),
          Ev.xprint "\n".toList], none⟩) ∧
    (∀ (w : World) (env : PassEnv) (jid : Int) (name : CStr) (rest : List (Int × CStr))
        (n errno : Int),
      env.rctl_get_racct (print_jail_q name) = Racct.error errno → errno ≠ ENOSYS →
      jail_loop w env ((jid, name) :: rest) n =
        (⟨(if n + 1 = 1 then print_headers metrics else []) ++
            [print_jail_row jid name, Ev.xprint (": ".toList ++ w.strerror errno),
              Ev.xprint "\n".toList] ++ (jail_loop w env rest (n + 1)).1.out,
          (jail_loop w env rest (n + 1)).1.exit⟩, (jail_loop w env rest (n + 1)).2)) ∧
    (one_pass (scenarioWorld false) scenarioPass).exit = none ∧
    screen (one_pass (scenarioWorld false) scenarioPass).out =
      ("jid  name                  cpu%     mem    r/s    read    w/s  writtn\n" ++
       "  1  alpha                   12    2048      0       0      0       0\n" ++
       "  2  beta                : Permission denied\n").toList := by
  have h1 : ∀ (dp : Char) (rctl_get_racct : CStr → Racct) (strerror : Int → CStr)
      (ms : List Metric) (jid : Int) (name : CStr) (errno : Int),
      rctl_get_racct (print_jail_q name) = Racct.error errno → errno ≠ ENOSYS →
      print_jail dp rctl_get_racct strerror ms jid name =
        ⟨[print_jail_row jid name, Ev.xprint (": ".toList ++ strerror errno),
          Ev.xprint "\n".toList], none⟩ := by
    intro dp rctl strerror ms jid name errno hq hne
    simp only [print_jail, hq, hne, if_false]
  refine ⟨h1, ?_, by decide, by decide⟩
  intro w env jid name rest n errno hq hne
  rw [jail_loop]
  simp only [h1 (locale_radix w) env.rctl_get_racct w.strerror metrics jid name errno hq hne]

/-- Witness of C9: the jail "beta" of the scenario, whose query fails with error 13. -/
theorem print_jail_query_error_witness :
    print_jail '.' scenarioPass.rctl_get_racct (fun _ => "Permission denied".toList) metrics 2
        "beta".toList =
      ⟨[Ev.xprint "  2  beta                ".toList, Ev.xprint ": Permission denied".toList,
        Ev.xprint "\n".toList], none⟩ :=
  print_jail_query_error.1 '.' scenarioPass.rctl_get_racct
    (fun _ => "Permission denied".toList) metrics 2 "beta".toList 13 (by decide) (by decide)

/-! ## The sampling loop -/

/-- C7 as stated fails.  With `-d 2147483647` on an output that is no smart terminal the
requested count equals the value that stands for "no count given", and one pass is
rendered instead of 2147483647, although every pass finds the two jails of the scenario.
And when an accounting query reports `ENOSYS` the process exits with `EX_OSERR` in the
first pass of `-d 3`, although every pass enumerates two jails without a hard error. -/
theorem main_pass_count_counterexample :
    Started (scenarioWorld false) ∧ PassOk scenarioPass ∧
    (main (scenarioWorld false) [('d', "2147483647".toList)]).exit = some 0 ∧
    (main (scenarioWorld false) [('d', "2147483647".toList)]).out.count Ev.xrefresh = 1 ∧
    sleepCount (main (scenarioWorld false) [('d', "2147483647".toList)]).out = 0 ∧
    Started unsupportedWorld ∧
    (unsupportedWorld.passes 0).jails.length = 2 ∧ (unsupportedWorld.passes 0).errno = ENOENT ∧
    (main unsupportedWorld [('d', "3".toList)]).exit = some EX_OSERR ∧
    (main unsupportedWorld [('d', "3".toList)]).out.count Ev.xrefresh = 0 := by
  decide

/-- C7, amended: on every command line of `-d` and `-s` options in range (counts of at
most `INT_MAX`, intervals between 1 and `INT_MAX`) whose last `-d` gives the pass count
`n ≥ 1`, other than `n = INT_MAX` on an output that is no smart terminal, if the startup
reaches the sampling loop, every pass enumerates at least one jail, the enumerator
reports no hard error and no accounting query reports `ENOSYS`, then `main` renders
exactly `n` passes separated by `n - 1` sleeps of the interval given with `-s` (2 seconds
without `-s`; a sleep and an empty `puts` between two consecutive passes, none after the
last) and returns 0. -/
theorem main_renders_requested_passes (w : World) (opts : List (Char × CStr))
    (n itv : Nat) (hs : Started w) (hv : ValidOpts opts)
    (hd : ∃ t, lastOpt 'd' opts = some t ∧ IsNumeral t n)
    (hi : Given 's' 2 opts itv) (h1 : 1 ≤ n)
    (hsent : n = 2147483647 → init_io w = true)
    (hp : ∀ k < n, PassOk (w.passes k)) :
    main w opts =
      ⟨List.intercalate [Ev.sleep itv, Ev.puts []] ((List.range n).map (passOut w)),
        some 0⟩ ∧
    (main w opts).out.count Ev.xrefresh = n ∧
    sleepCount (main w opts).out = n - 1 := by
  obtain ⟨hs1, hs2, hs3, hs4, hs5⟩ := hs
  have hgd : Given 'd' 2147483647 opts n := by
    obtain ⟨t, ht, hn⟩ := hd
    simp only [Given, ht]
    exact hn
  have hparse : parse_opts opts INT_MAX 2 = Except.ok ((n : Int), (itv : Int)) :=
    parse_opts_given opts 2147483647 2 n itv hv hgd hi
  have hcount : (if (n : Int) = INT_MAX ∧ (!init_io w) = true then (1 : Int) else (n : Int))
      = (n : Int) := by
    by_cases hn : n = 2147483647
    · simp [hsent hn]
    · have : ¬ ((n : Int) = INT_MAX) := by
        unfold INT_MAX
        omega
      simp [this]
  have hscr : ¬ (init_io w = true ∧ (!w.initscr_ok) = true) := by
    intro h
    have := hs5 h.1
    rw [this] at h
    exact absurd h.2 (by decide)
  have hmain : main w opts = sampling_loop w itv n 0 := by
    unfold main
    rw [if_neg hs1, if_neg hs2, hparse]
    simp only [hs3, hs4, Bool.not_true, Bool.false_eq_true, if_false, hscr, hcount,
      Int.toNat_ofNat]
  obtain ⟨m, rfl⟩ : ∃ m, n = m + 1 := ⟨n - 1, by omega⟩
  have hloop := sampling_loop_ok w itv m 0 (fun j hj => by simpa using hp j hj)
  rw [hmain, List.range_eq_range']
  exact ⟨hloop.1, hloop.2.1, by simpa using hloop.2.2⟩

/-- Witness of C7, amended: `-d 03 -s 5` on a smart terminal in the scenario of the two
jails gives three passes and two sleeps of 5 seconds. -/
theorem main_renders_requested_passes_witness :
    main (scenarioWorld true) [('d', "03".toList), ('s', "5".toList)] =
      ⟨List.intercalate [Ev.sleep 5, Ev.puts []]
        ((List.range 3).map (passOut (scenarioWorld true))), some 0⟩ ∧
    (main (scenarioWorld true) [('d', "03".toList), ('s', "5".toList)]).out.count
      Ev.xrefresh = 3 ∧
    sleepCount (main (scenarioWorld true) [('d', "03".toList), ('s', "5".toList)]).out
      = 3 - 1 :=
  have h5 : IsNumeral "5".toList 5 :=
    ⟨[], [], "5".toList, rfl, by decide, Or.inl rfl, by decide, by decide, by decide⟩
  have h3 : IsNumeral "03".toList 3 :=
    ⟨[], [], "03".toList, rfl, by decide, Or.inl rfl, by decide, by decide, by decide⟩
  main_renders_requested_passes (scenarioWorld true)
    [('d', "03".toList), ('s', "5".toList)] 3 5 (by decide)
    (fun o ho => by
      rcases List.mem_cons.1 ho with h | h
      · rw [h]
        exact Or.inl ⟨rfl, 3, h3, by norm_num⟩
      · rw [List.mem_singleton.1 h]
        exact Or.inr ⟨rfl, 5, h5, by norm_num, by norm_num⟩)
    ⟨"03".toList, rfl, h3⟩ h5 (by norm_num) (by norm_num)
    (fun _ _ => (by decide : PassOk scenarioPass))

/-- C8 fails at `-d 0`: the count 0 is accepted by the option loop, and `main` then
renders one full pass (header and rows, one refresh, no sleep) before it returns 0,
on a smart terminal and on a plain one alike. -/
theorem main_d_zero :
    parse_opts [('d', "0".toList)] INT_MAX 2 = Except.ok (0, 2) ∧
    main (scenarioWorld true) [('d', "0".toList)] = ⟨passOut (scenarioWorld true) 0, some 0⟩ ∧
    main (scenarioWorld false) [('d', "0".toList)] = ⟨passOut (scenarioWorld false) 0, some 0⟩ ∧
    (main (scenarioWorld true) [('d', "0".toList)]).out.count Ev.xrefresh = 1 ∧
    screen (main (scenarioWorld true) [('d', "0".toList)]).out =
      ("jid  name                  cpu%     mem    r/s    read    w/s  writtn\n" ++
       "  1  alpha                   12    2048      0       0      0       0\n" ++
       "  2  beta                : Permission denied\n").toList :=
  ⟨rfl, by decide, by decide, by decide, by decide⟩

end Jruls
